import Mathlib

/-!
Verification of the contraction-hierarchy preprocessor core:
`include/contractor/contracted_edge_container.hpp` and `src/contractor/contractor.cpp`.

The C++ is embedded shallowly:

* `QueryEdge` mirrors the query-edge record; machine integers become `Nat`
  (overflow is modelled explicitly with `% 256` where the code stores into the
  8-bit `MergedFlags` type).
* `ContractedEdgeContainer.Merge` iterates with destructive iterators.  Its loop
  conditions dereference an iterator *before* comparing it with `end`, so the
  code can read one slot past the end of a vector.  The embedding makes this
  explicit: the values obtained by dereferencing the `end` iterator of the
  stored edge vector and of `new_edges` are the parameters `ge` and `gn`, and a
  boolean (`db`) records whether any such out-of-range read happened.  Every
  other aspect of the control flow is translated loop by loop.
* Fallible vector indexing (`operator[]` out of range in `MakeEdgeFilters`)
  becomes `Option`.
* `Contractor::Run` is embedded as a function producing the trace of its reads,
  contraction calls and writes; collaborators that live outside the two source
  files (updater, file readers, `contractGraph`, CRC) are opaque parameters, and
  `util::excludeFlagsToNodeFilter` is modelled from the spec.  The `float`
  configuration value `core_factor` is modelled as `ℚ`; the code only compares
  it against the exact constants `0`, `1` and `0.9`.
-/

/-- Edge payload of a `QueryEdge` (`contractor/query_edge.hpp`): the six data
fields that take part in the canonical tuple. -/
structure EdgeData where
  shortcut : Bool
  turn_id : Nat
  weight : Nat
  duration : Nat
  forward : Bool
  backward : Bool
deriving DecidableEq, Repr

/-- Output edge record (`contractor/query_edge.hpp`). -/
structure QueryEdge where
  source : Nat
  target : Nat
  data : EdgeData
deriving DecidableEq, Repr

/-- Strict lexicographic comparison of equal-length key lists; this is the
semantics of `operator<` on `std::tie(...)` tuples (C++ bools compare as
`false < true`, represented by `0`/`1`). -/
def lexLt : List Nat → List Nat → Bool
  | [], [] => false
  | [], _ :: _ => true
  | _ :: _, [] => false
  | a :: as, b :: bs => if a < b then true else if a = b then lexLt as bs else false

/-- The canonical tuple `(source, target, shortcut, turn_id, weight, duration,
forward, backward)` of `ContractedEdgeContainer::mergeCompare`, as a key list. -/
def edgeKey (e : QueryEdge) : List Nat :=
  [e.source, e.target, cond e.data.shortcut 1 0, e.data.turn_id, e.data.weight,
   e.data.duration, cond e.data.forward 1 0, cond e.data.backward 1 0]

/-- `ContractedEdgeContainer::mergeCompare` (contracted_edge_container.hpp:17-34):
`std::tie(lhs...) < std::tie(rhs...)` on the canonical tuple. -/
def mergeCompare (lhs rhs : QueryEdge) : Bool :=
  lexLt (edgeKey lhs) (edgeKey rhs)

/-- `ContractedEdgeContainer::mergable` (contracted_edge_container.hpp:36-40):
true only if both edges are equal under the canonical tuple. -/
def mergable (lhs rhs : QueryEdge) : Bool :=
  !mergeCompare lhs rhs && !mergeCompare rhs lhs

/-- State of `ContractedEdgeContainer` (contracted_edge_container.hpp:120-122).
`MergedFlags` is `std::uint8_t`; flag values are `Nat`s below 256. -/
structure ContractedEdgeContainer where
  index : Nat
  flags : List Nat
  edges : List QueryEdge
deriving DecidableEq, Repr

/-- The empty container (all members default-initialized). -/
def ContractedEdgeContainer.empty : ContractedEdgeContainer := ⟨0, [], []⟩

/-- Intermediate state of one `Merge` call: the unread suffixes of `edges`,
`flags` and `new_edges` (the iterators), the accumulated `merged_edges` and
`merged_flags`, and whether an `end` iterator has been dereferenced (`db`). -/
structure MState where
  es : List QueryEdge
  fs : List Nat
  ns : List QueryEdge
  accE : List QueryEdge
  accF : List Nat
  db : Bool
deriving DecidableEq, Repr

/-- First inner loop of `Merge` (contracted_edge_container.hpp:64-68 and the
trailing copy at 87-92):
`while (mergeCompare(*edges_iter, rv) && edges_iter != edges_end)` carrying
existing edges with their flags.  `rv` is the value of `*new_edges_iter`, which
does not advance here; `rvD` is true when that dereference is itself past the
end (the trailing loop).  When `edges_iter` hits `end` the condition still
dereferences it, which the state records in `db` before the bounds check stops
the loop. -/
def loopA (rv : QueryEdge) (rvD : Bool) :
    List QueryEdge → List Nat → List QueryEdge → List QueryEdge → List Nat → Bool → MState
  | [], fs, ns, aE, aF, _ => ⟨[], fs, ns, aE, aF, true⟩
  | e :: es, fs, ns, aE, aF, db =>
    if mergeCompare e rv then
      loopA rv rvD es fs.tail ns (aE ++ [e]) (aF ++ [fs.headD 0]) (db || rvD)
    else ⟨e :: es, fs, ns, aE, aF, db || rvD⟩

/-- Second inner loop of `Merge` (contracted_edge_container.hpp:70-74 and the
trailing copy at 94-99):
`while (mergeCompare(*new_edges_iter, lv) && new_edges_iter != new_edges_end)`
inserting new edges with the pass flag.  `lv` is the value of `*edges_iter`;
`lvD` is true when that dereference is past the end. -/
def loopB (flag : Nat) (lv : QueryEdge) (lvD : Bool) :
    List QueryEdge → List Nat → List QueryEdge → List QueryEdge → List Nat → Bool → MState
  | es, fs, [], aE, aF, _ => ⟨es, fs, [], aE, aF, true⟩
  | es, fs, n :: ns, aE, aF, db =>
    if mergeCompare n lv then
      loopB flag lv lvD es fs ns (aE ++ [n]) (aF ++ [flag]) (db || lvD)
    else ⟨es, fs, n :: ns, aE, aF, db || lvD⟩

/-- Third inner loop of `Merge` (contracted_edge_container.hpp:76-84):
`while (mergable(*edges_iter, *new_edges_iter) && edges_iter != edges_end &&
new_edges_iter != new_edges_end)` carrying one merged copy with
`*flags_iter++ | flag`.  Both dereferences precede the bounds checks. -/
def loopC (flag : Nat) :
    List QueryEdge → List Nat → List QueryEdge → List QueryEdge → List Nat → Bool → MState
  | [], fs, ns, aE, aF, _ => ⟨[], fs, ns, aE, aF, true⟩
  | e :: es, fs, [], aE, aF, _ => ⟨e :: es, fs, [], aE, aF, true⟩
  | e :: es, fs, n :: ns, aE, aF, db =>
    if mergable e n then
      loopC flag es fs.tail ns (aE ++ [e]) (aF ++ [Nat.lor (fs.headD 0) flag]) db
    else ⟨e :: es, fs, n :: ns, aE, aF, db⟩

/-- Outer loop of `Merge` (contracted_edge_container.hpp:62-85):
`while (edges_iter != edges_end && new_edges_iter != new_edges_end)` running the
three inner loops.  The recursion is fuelled; `Merge` supplies fuel exceeding
the total number of elements, which bounds the number of outer iterations
(each iteration consumes at least one element).  `outerBody` is one iteration:
the three inner sweeps in sequence; `n` is the value of `*new_edges_iter` at
the head of the iteration. -/
def outerBody (flag : Nat) (ge : QueryEdge) (n : QueryEdge) (s : MState) : MState :=
  let s1 := loopA n false s.es s.fs s.ns s.accE s.accF s.db
  let s2 := loopB flag (s1.es.headD ge) s1.es.isEmpty s1.es s1.fs s1.ns s1.accE s1.accF s1.db
  loopC flag s2.es s2.fs s2.ns s2.accE s2.accF s2.db

def outerLoop (flag : Nat) (ge gn : QueryEdge) : Nat → MState → MState
  | 0, s => s
  | fuel + 1, s =>
    match s.es, s.ns with
    | [], _ => s
    | _ :: _, [] => s
    | _ :: _, n :: _ => outerLoop flag ge gn fuel (outerBody flag ge n s)

/-- `ContractedEdgeContainer::Merge` (contracted_edge_container.hpp:43-103),
instrumented.  `ge` and `gn` are the values obtained by dereferencing the `end`
iterators of the stored edge vector and of `new_edges`; the second component of
the result records whether any such out-of-range dereference occurred.  The
pass flag is `1 << index` stored into the 8-bit `MergedFlags`, i.e.
`2 ^ index % 256`. -/
def MergeI (ge gn : QueryEdge) (c : ContractedEdgeContainer) (new_edges : List QueryEdge) :
    ContractedEdgeContainer × Bool :=
  let flag := 2 ^ c.index % 256
  let s0 : MState := ⟨c.edges, c.flags, new_edges, [], [], false⟩
  let s1 := outerLoop flag ge gn (c.edges.length + new_edges.length + 1) s0
  let s2 := loopA (s1.ns.headD gn) s1.ns.isEmpty s1.es s1.fs s1.ns s1.accE s1.accF s1.db
  let s3 := loopB flag (s2.es.headD ge) s2.es.isEmpty s2.es s2.fs s2.ns s2.accE s2.accF s2.db
  (⟨c.index + 1, s3.accF, s3.accE⟩, s3.db)

/-- `ContractedEdgeContainer::Merge`: the resulting container state. -/
def Merge (ge gn : QueryEdge) (c : ContractedEdgeContainer) (new_edges : List QueryEdge) :
    ContractedEdgeContainer :=
  (MergeI ge gn c new_edges).1

/-- Fallible functional update of one list position; `none` models an
out-of-range `std::vector::operator[]`. -/
def updateAt? {α : Type} : List α → Nat → (α → α) → Option (List α)
  | [], _, _ => none
  | x :: xs, 0, g => some (g x :: xs)
  | x :: xs, i + 1, g => (updateAt? xs i g).map (x :: ·)

/-- `ContractedEdgeContainer::MakeEdgeFilters` (contracted_edge_container.hpp:105-118).
The code allocates `index` empty vectors and then executes
`filters[index].push_back(flag & mask)` — indexing position `index` of a vector
of size `index`, which is out of range; the embedding returns `none` at that
access. -/
def MakeEdgeFilters (c : ContractedEdgeContainer) : Option (List (List Bool)) :=
  (List.range c.index).foldlM
    (fun filters flag_index =>
      let mask := 2 ^ flag_index % 256
      c.flags.foldlM
        (fun acc flag => updateAt? acc c.index (· ++ [decide (Nat.land flag mask ≠ 0)]))
        filters)
    (List.replicate c.index ([] : List Bool))

/-- The three-way sorted merge mandated by the spec (§4.E): carry an
existing-only edge with its flags, insert a new-only edge with the pass flag,
and keep one copy with `existing | flag` when the canonical tuples are equal.
Stated over the zipped (edge, flag) sequence; used as the reference point of
refinement statements about `Merge`. -/
def specThreeWayMerge (flag : Nat) :
    List (QueryEdge × Nat) → List QueryEdge → List (QueryEdge × Nat)
  | [], ns => ns.map (fun n => (n, flag))
  | p :: ps, [] => p :: ps
  | (e, f) :: ps, n :: ns =>
    if mergeCompare e n then (e, f) :: specThreeWayMerge flag ps (n :: ns)
    else if mergeCompare n e then (n, flag) :: specThreeWayMerge flag ((e, f) :: ps) ns
    else (e, Nat.lor f flag) :: specThreeWayMerge flag ps ns
termination_by ps ns => ps.length + ns.length

/-- The edge-filter extraction mandated by the spec (§4.E):
`filters[p][i] = (flags[i] >> p) & 1` for each pass `p < index`.  Reference
point for `MakeEdgeFilters`. -/
def specMakeEdgeFilters (c : ContractedEdgeContainer) : List (List Bool) :=
  (List.range c.index).map (fun p => c.flags.map (fun f => decide (Nat.land (f >>> p) 1 = 1)))

/-! Order-theoretic facts about the canonical-tuple comparison. -/

theorem lexLt_cons_iff {x y : Nat} {xs ys : List Nat} :
    lexLt (x :: xs) (y :: ys) = true ↔ x < y ∨ (x = y ∧ lexLt xs ys = true) := by
  simp only [lexLt]
  split
  · simp [*]
  · split
    · simp [*]
    · simp [*]

theorem lexLt_irrefl (l : List Nat) : lexLt l l = false := by
  induction l with
  | nil => rfl
  | cons a as ih => simp [lexLt, ih]

theorem lexLt_trans {a b c : List Nat} (hab : lexLt a b = true) (hbc : lexLt b c = true) :
    lexLt a c = true := by
  induction a generalizing b c with
  | nil =>
    cases b with
    | nil => simp [lexLt] at hab
    | cons y ys =>
      cases c with
      | nil => simp [lexLt] at hbc
      | cons z zs => simp [lexLt]
  | cons x xs ih =>
    cases b with
    | nil => simp [lexLt] at hab
    | cons y ys =>
      cases c with
      | nil => simp [lexLt] at hbc
      | cons z zs =>
        rw [lexLt_cons_iff] at hab hbc ⊢
        rcases hab with h1 | ⟨rfl, h1⟩
        · rcases hbc with h2 | ⟨rfl, h2⟩
          · exact Or.inl (Nat.lt_trans h1 h2)
          · exact Or.inl h1
        · rcases hbc with h2 | ⟨rfl, h2⟩
          · exact Or.inl h2
          · exact Or.inr ⟨rfl, ih h1 h2⟩

theorem lexLt_eq_of_not_lt {a b : List Nat} (hab : lexLt a b = false)
    (hba : lexLt b a = false) : a = b := by
  induction a generalizing b with
  | nil =>
    cases b with
    | nil => rfl
    | cons y ys => simp [lexLt] at hab
  | cons x xs ih =>
    cases b with
    | nil => simp [lexLt] at hba
    | cons y ys =>
      have hab' : ¬ (x < y ∨ (x = y ∧ lexLt xs ys = true)) := by
        rw [← lexLt_cons_iff]
        simp [hab]
      have hba' : ¬ (y < x ∨ (y = x ∧ lexLt ys xs = true)) := by
        rw [← lexLt_cons_iff]
        simp [hba]
      push_neg at hab' hba'
      obtain ⟨hn1, hi1⟩ := hab'
      obtain ⟨hn2, hi2⟩ := hba'
      have hxy : x = y := by omega
      subst hxy
      have h1 : lexLt xs ys = false := by simpa using hi1 rfl
      have h2 : lexLt ys xs = false := by simpa using hi2 rfl
      rw [ih h1 h2]

theorem condNat_inj {b c : Bool} (h : cond b 1 0 = cond c 1 0) : b = c := by
  cases b <;> cases c <;> simp_all

theorem edgeKey_injective {l r : QueryEdge} (h : edgeKey l = edgeKey r) : l = r := by
  obtain ⟨ls, lt', ⟨lsc, lti, lw, ld, lf, lb⟩⟩ := l
  obtain ⟨rs, rt, ⟨rsc, rti, rw, rd, rf, rb⟩⟩ := r
  simp only [edgeKey, List.cons.injEq, and_true] at h
  obtain ⟨h1, h2, h3, h4, h5, h6, h7, h8⟩ := h
  have e3 := condNat_inj h3
  have e7 := condNat_inj h7
  have e8 := condNat_inj h8
  subst h1 h2 h4 h5 h6 e3 e7 e8
  rfl

theorem mergeCompare_irrefl (e : QueryEdge) : mergeCompare e e = false :=
  lexLt_irrefl (edgeKey e)

theorem mergeCompare_trans {a b c : QueryEdge} (hab : mergeCompare a b = true)
    (hbc : mergeCompare b c = true) : mergeCompare a c = true :=
  lexLt_trans hab hbc

theorem mergeCompare_eq_of_not {a b : QueryEdge} (hab : mergeCompare a b = false)
    (hba : mergeCompare b a = false) : a = b :=
  edgeKey_injective (lexLt_eq_of_not_lt hab hba)

theorem mergable_iff_eq {a b : QueryEdge} : mergable a b = true ↔ a = b := by
  constructor
  · intro h
    simp only [mergable, Bool.and_eq_true, Bool.not_eq_true'] at h
    exact mergeCompare_eq_of_not h.1 h.2
  · rintro rfl
    simp [mergable, mergeCompare_irrefl]

theorem mergeCompare_asymm {a b : QueryEdge} (h : mergeCompare a b = true) :
    mergeCompare b a = false := by
  cases hba : mergeCompare b a with
  | false => rfl
  | true => exact absurd (mergeCompare_trans h hba) (by simp [mergeCompare_irrefl])

/-! Sortedness and flag invariants of `Merge`, proved for every possible value
of the out-of-range reads `ge`/`gn`. -/

/-- Strictly-increasing (by the canonical tuple) edge sequence. -/
def edgeChain (l : List QueryEdge) : Prop :=
  List.Chain' (fun a b => mergeCompare a b = true) l

/-- The accumulated output stays below everything still unread. -/
def goodAcc (aE es ns : List QueryEdge) : Prop :=
  ∀ a ∈ aE.getLast?,
    (∀ e ∈ es.head?, mergeCompare a e = true) ∧ (∀ n ∈ ns.head?, mergeCompare a n = true)

/-- Invariant of the merge sweep: both unread suffixes and the accumulator are
strictly increasing, flags run in lockstep with edges, all flags are nonzero,
and the accumulator is below the unread suffixes. -/
def InvS (s : MState) : Prop :=
  edgeChain s.es ∧ edgeChain s.ns ∧ edgeChain s.accE ∧
  s.fs.length = s.es.length ∧ (∀ f ∈ s.fs, f ≠ 0) ∧
  (∀ f ∈ s.accF, f ≠ 0) ∧ s.accF.length = s.accE.length ∧
  goodAcc s.accE s.es s.ns

theorem lor_ne_zero_left {a : Nat} (b : Nat) (ha : a ≠ 0) : Nat.lor a b ≠ 0 := by
  intro h
  obtain ⟨i, hi⟩ := Nat.ne_zero_implies_bit_true ha
  have hbit : (Nat.lor a b).testBit i = true := by
    rw [show Nat.lor a b = a ||| b from rfl, Nat.testBit_lor, hi, Bool.true_or]
  rw [h, Nat.zero_testBit] at hbit
  exact Bool.false_ne_true hbit

theorem lor_ne_zero_right (a : Nat) {b : Nat} (hb : b ≠ 0) : Nat.lor a b ≠ 0 := by
  rw [show Nat.lor a b = a ||| b from rfl, Nat.lor_comm]
  exact lor_ne_zero_left a hb

theorem loopA_inv (rv : QueryEdge) (rvD : Bool) (es : List QueryEdge) :
    ∀ (fs : List Nat) (ns : List QueryEdge) (aE : List QueryEdge) (aF : List Nat) (db : Bool),
      InvS ⟨es, fs, ns, aE, aF, db⟩ → (ns = [] ∨ ns.head? = some rv) →
      InvS (loopA rv rvD es fs ns aE aF db) := by
  induction es with
  | nil =>
    intro fs ns aE aF db h _
    simpa only [loopA, InvS] using h
  | cons e es ih =>
    intro fs ns aE aF db h hrv
    obtain ⟨hces, hcns, hcaE, hlen, hfnz, haFnz, haFlen, hacc⟩ := h
    obtain ⟨hhead, htail⟩ := List.chain'_cons'.mp hces
    cases fs with
    | nil => exact absurd hlen (by simp)
    | cons f fs' =>
      simp only [loopA]
      by_cases hcomp : mergeCompare e rv = true
      · rw [if_pos hcomp]
        apply ih
        · refine ⟨htail, hcns, ?_, ?_, ?_, ?_, ?_, ?_⟩
          · exact List.Chain'.append hcaE (List.chain'_singleton e)
              (fun x hx y hy => by
                simp only [List.head?_cons, Option.mem_def, Option.some.injEq] at hy
                subst hy
                exact (hacc x hx).1 e (by simp))
          · simpa using Nat.succ_injective (by simpa using hlen)
          · intro g hg
            exact hfnz g (List.mem_cons_of_mem f hg)
          · intro g hg
            rcases List.mem_append.mp hg with hg | hg
            · exact haFnz g hg
            · simp only [List.headD_cons, List.mem_singleton] at hg
              rw [hg]
              exact hfnz f (by simp)
          · simp [haFlen]
          · intro a ha
            rw [List.getLast?_concat] at ha
            simp only [Option.mem_def, Option.some.injEq] at ha
            subst ha
            refine ⟨hhead, ?_⟩
            rcases hrv with rfl | hrv
            · simp
            · intro n hn
              simp only [Option.mem_def, hrv, Option.some.injEq] at hn
              subst hn
              exact hcomp
        · exact hrv
      · rw [if_neg hcomp]
        exact ⟨hces, hcns, hcaE, hlen, hfnz, haFnz, haFlen, hacc⟩

theorem loopB_inv (flag : Nat) (lv : QueryEdge) (lvD : Bool) (hflag : flag ≠ 0)
    (ns : List QueryEdge) :
    ∀ (es : List QueryEdge) (fs : List Nat) (aE : List QueryEdge) (aF : List Nat) (db : Bool),
      InvS ⟨es, fs, ns, aE, aF, db⟩ → (es = [] ∨ es.head? = some lv) →
      InvS (loopB flag lv lvD es fs ns aE aF db) := by
  induction ns with
  | nil =>
    intro es fs aE aF db h _
    simpa only [loopB, InvS] using h
  | cons n ns ih =>
    intro es fs aE aF db h hlv
    obtain ⟨hces, hcns, hcaE, hlen, hfnz, haFnz, haFlen, hacc⟩ := h
    obtain ⟨hhead, htail⟩ := List.chain'_cons'.mp hcns
    simp only [loopB]
    by_cases hcomp : mergeCompare n lv = true
    · rw [if_pos hcomp]
      apply ih
      · refine ⟨hces, htail, ?_, hlen, hfnz, ?_, ?_, ?_⟩
        · exact List.Chain'.append hcaE (List.chain'_singleton n)
            (fun x hx y hy => by
              simp only [List.head?_cons, Option.mem_def, Option.some.injEq] at hy
              subst hy
              exact (hacc x hx).2 n (by simp))
        · intro g hg
          rcases List.mem_append.mp hg with hg | hg
          · exact haFnz g hg
          · simp only [List.mem_singleton] at hg
            subst hg
            exact hflag
        · simp [haFlen]
        · intro a ha
          rw [List.getLast?_concat] at ha
          simp only [Option.mem_def, Option.some.injEq] at ha
          subst ha
          refine ⟨?_, hhead⟩
          rcases hlv with rfl | hlv
          · simp
          · intro e he
            simp only [Option.mem_def, hlv, Option.some.injEq] at he
            subst he
            exact hcomp
      · exact hlv
    · rw [if_neg hcomp]
      exact ⟨hces, hcns, hcaE, hlen, hfnz, haFnz, haFlen, hacc⟩

theorem loopC_inv (flag : Nat) (es : List QueryEdge) :
    ∀ (fs : List Nat) (ns : List QueryEdge) (aE : List QueryEdge) (aF : List Nat) (db : Bool),
      InvS ⟨es, fs, ns, aE, aF, db⟩ →
      InvS (loopC flag es fs ns aE aF db) := by
  induction es with
  | nil =>
    intro fs ns aE aF db h
    simpa only [loopC, InvS] using h
  | cons e es ih =>
    intro fs ns aE aF db h
    obtain ⟨hces, hcns, hcaE, hlen, hfnz, haFnz, haFlen, hacc⟩ := h
    cases ns with
    | nil => exact ⟨hces, hcns, hcaE, hlen, hfnz, haFnz, haFlen, hacc⟩
    | cons n ns' =>
      obtain ⟨hheadE, htailE⟩ := List.chain'_cons'.mp hces
      obtain ⟨hheadN, htailN⟩ := List.chain'_cons'.mp hcns
      cases fs with
      | nil => exact absurd hlen (by simp)
      | cons f fs' =>
        simp only [loopC]
        by_cases hm : mergable e n = true
        · rw [if_pos hm]
          have hen : e = n := mergable_iff_eq.mp hm
          apply ih
          refine ⟨htailE, htailN, ?_, ?_, ?_, ?_, ?_, ?_⟩
          · exact List.Chain'.append hcaE (List.chain'_singleton e)
              (fun x hx y hy => by
                simp only [List.head?_cons, Option.mem_def, Option.some.injEq] at hy
                subst hy
                exact (hacc x hx).1 e (by simp))
          · simpa using Nat.succ_injective (by simpa using hlen)
          · intro g hg
            exact hfnz g (List.mem_cons_of_mem f hg)
          · intro g hg
            rcases List.mem_append.mp hg with hg | hg
            · exact haFnz g hg
            · simp only [List.headD_cons, List.mem_singleton] at hg
              rw [hg]
              exact lor_ne_zero_left flag (hfnz f (by simp))
          · simp [haFlen]
          · intro a ha
            rw [List.getLast?_concat] at ha
            simp only [Option.mem_def, Option.some.injEq] at ha
            subst ha
            exact ⟨hheadE, by rw [hen]; exact hheadN⟩
        · rw [if_neg hm]
          exact ⟨hces, hcns, hcaE, hlen, hfnz, haFnz, haFlen, hacc⟩

theorem outerLoop_inv (flag : Nat) (ge gn : QueryEdge) (hflag : flag ≠ 0) (fuel : Nat) :
    ∀ s : MState, InvS s → InvS (outerLoop flag ge gn fuel s) := by
  induction fuel with
  | zero =>
    intro s h
    simpa only [outerLoop] using h
  | succ fuel ih =>
    intro s h
    obtain ⟨es, fs, ns, aE, aF, db⟩ := s
    cases hes : es with
    | nil => simpa only [outerLoop, hes] using h
    | cons e es' =>
      cases hns : ns with
      | nil => simpa only [outerLoop, hes, hns] using h
      | cons n ns' =>
        subst hes hns
        simp only [outerLoop, outerBody]
        apply ih
        apply loopC_inv
        set s1 := loopA n false (e :: es') fs (n :: ns') aE aF db with hs1
        have h1 : InvS s1 := loopA_inv n false (e :: es') fs (n :: ns') aE aF db h
          (Or.inr (by simp))
        have h2 : InvS (loopB flag (s1.es.headD ge) s1.es.isEmpty s1.es s1.fs s1.ns s1.accE
            s1.accF s1.db) := by
          apply loopB_inv flag (s1.es.headD ge) s1.es.isEmpty hflag s1.ns s1.es s1.fs s1.accE
            s1.accF s1.db h1
          cases hse : s1.es with
          | nil => exact Or.inl rfl
          | cons x xs => exact Or.inr (by simp [hse])
        exact h2

theorem Merge_index (ge gn : QueryEdge) (c : ContractedEdgeContainer)
    (new_edges : List QueryEdge) : (Merge ge gn c new_edges).index = c.index + 1 := rfl

/-- Executable check for `edgeChain`. -/
def edgeChainB : List QueryEdge → Bool
  | [] => true
  | [_] => true
  | a :: b :: l => mergeCompare a b && edgeChainB (b :: l)

theorem edgeChain_iff (l : List QueryEdge) : edgeChain l ↔ edgeChainB l = true := by
  induction l with
  | nil => simp [edgeChain, edgeChainB]
  | cons a l ih =>
    cases l with
    | nil => simp [edgeChain, edgeChainB]
    | cons b l =>
      unfold edgeChain at ih ⊢
      rw [List.chain'_cons]
      simp only [edgeChainB, Bool.and_eq_true]
      rw [ih]

instance (l : List QueryEdge) : Decidable (edgeChain l) :=
  decidable_of_iff (edgeChainB l = true) (edgeChain_iff l).symm

/-- Non-strict sortedness by the canonical tuple (duplicates allowed):
no element is below its predecessor. -/
def sortedLe : List QueryEdge → Bool
  | [] => true
  | [_] => true
  | a :: b :: l => !mergeCompare b a && sortedLe (b :: l)

theorem Merge_preserves (ge gn : QueryEdge) (c : ContractedEdgeContainer)
    (new_edges : List QueryEdge) (hidx : c.index < 8) (hce : edgeChain c.edges)
    (hlen : c.flags.length = c.edges.length) (hfnz : ∀ f ∈ c.flags, f ≠ 0)
    (hnew : edgeChain new_edges) :
    edgeChain (Merge ge gn c new_edges).edges ∧
    (Merge ge gn c new_edges).flags.length = (Merge ge gn c new_edges).edges.length ∧
    (∀ f ∈ (Merge ge gn c new_edges).flags, f ≠ 0) := by
  have hflag : 2 ^ c.index % 256 ≠ 0 := by
    have h1 : 2 ^ c.index < 256 := by
      calc 2 ^ c.index < 2 ^ 8 := Nat.pow_lt_pow_right (by norm_num) hidx
        _ = 256 := by norm_num
    rw [Nat.mod_eq_of_lt h1]
    exact (Nat.two_pow_pos c.index).ne'
  have h0 : InvS ⟨c.edges, c.flags, new_edges, [], [], false⟩ := by
    refine ⟨hce, hnew, List.chain'_nil, hlen, hfnz, by simp, by simp, ?_⟩
    intro a ha
    simp at ha
  have h1 : InvS (outerLoop (2 ^ c.index % 256) ge gn
      (c.edges.length + new_edges.length + 1) ⟨c.edges, c.flags, new_edges, [], [], false⟩) :=
    outerLoop_inv _ ge gn hflag _ _ h0
  simp only [Merge, MergeI]
  set s1 := outerLoop (2 ^ c.index % 256) ge gn (c.edges.length + new_edges.length + 1)
      ⟨c.edges, c.flags, new_edges, [], [], false⟩ with hs1
  have h2 : InvS (loopA (s1.ns.headD gn) s1.ns.isEmpty s1.es s1.fs s1.ns s1.accE s1.accF s1.db) := by
    apply loopA_inv (s1.ns.headD gn) s1.ns.isEmpty s1.es s1.fs s1.ns s1.accE s1.accF s1.db h1
    cases hsn : s1.ns with
    | nil => exact Or.inl rfl
    | cons x xs => exact Or.inr (by simp [hsn])
  set s2 := loopA (s1.ns.headD gn) s1.ns.isEmpty s1.es s1.fs s1.ns s1.accE s1.accF s1.db with hs2
  have h3 : InvS (loopB (2 ^ c.index % 256) (s2.es.headD ge) s2.es.isEmpty s2.es s2.fs s2.ns
      s2.accE s2.accF s2.db) := by
    apply loopB_inv (2 ^ c.index % 256) (s2.es.headD ge) s2.es.isEmpty hflag s2.ns s2.es s2.fs
      s2.accE s2.accF s2.db h2
    cases hse : s2.es with
    | nil => exact Or.inl rfl
    | cons x xs => exact Or.inr (by simp [hse])
  obtain ⟨-, -, hchain, -, -, hnz, hlen3, -⟩ := h3
  exact ⟨hchain, hlen3, hnz⟩

/-- A run of `Merge` calls starting from the empty container; `g` gives, for
the pass at container index `i`, the two values read by dereferencing the
`end` iterators during that pass. -/
def mergeRuns (g : Nat → QueryEdge × QueryEdge) (passes : List (List QueryEdge)) :
    ContractedEdgeContainer :=
  passes.foldl (fun c new_edges => Merge (g c.index).1 (g c.index).2 c new_edges)
    ContractedEdgeContainer.empty

theorem mergeRuns_foldl_inv (g : Nat → QueryEdge × QueryEdge) :
    ∀ (passes : List (List QueryEdge)) (c : ContractedEdgeContainer),
      c.index + passes.length ≤ 8 → edgeChain c.edges →
      c.flags.length = c.edges.length → (∀ f ∈ c.flags, f ≠ 0) →
      (∀ p ∈ passes, edgeChain p) →
      edgeChain ((passes.foldl
          (fun c new_edges => Merge (g c.index).1 (g c.index).2 c new_edges) c).edges) ∧
      (∀ f ∈ (passes.foldl
          (fun c new_edges => Merge (g c.index).1 (g c.index).2 c new_edges) c).flags, f ≠ 0) := by
  intro passes
  induction passes with
  | nil =>
    intro c _ hce hlen hfnz _
    exact ⟨hce, hfnz⟩
  | cons p ps ih =>
    intro c hidx hce hlen hfnz hall
    have hcidx : c.index < 8 := by
      simp only [List.length_cons] at hidx
      omega
    obtain ⟨h1, h2, h3⟩ := Merge_preserves (g c.index).1 (g c.index).2 c p hcidx hce hlen hfnz
      (hall p (by simp))
    simp only [List.foldl_cons]
    apply ih
    · rw [Merge_index]
      simp only [List.length_cons] at hidx
      omega
    · exact h1
    · exact h2
    · exact h3
    · intro q hq
      exact hall q (List.mem_cons_of_mem p hq)

/-! Every execution of `Merge` dereferences an iterator equal to `end`. -/

theorem loopA_ns_eq (rv : QueryEdge) (rvD : Bool) :
    ∀ (es : List QueryEdge) (fs : List Nat) (ns : List QueryEdge) (aE : List QueryEdge)
      (aF : List Nat) (db : Bool), (loopA rv rvD es fs ns aE aF db).ns = ns := by
  intro es
  induction es with
  | nil => intro fs ns aE aF db; simp [loopA]
  | cons e es ih =>
    intro fs ns aE aF db
    simp only [loopA]
    split
    · exact ih _ _ _ _ _
    · rfl

theorem loopA_es_le (rv : QueryEdge) (rvD : Bool) :
    ∀ (es : List QueryEdge) (fs : List Nat) (ns : List QueryEdge) (aE : List QueryEdge)
      (aF : List Nat) (db : Bool), (loopA rv rvD es fs ns aE aF db).es.length ≤ es.length := by
  intro es
  induction es with
  | nil => intro fs ns aE aF db; simp [loopA]
  | cons e es ih =>
    intro fs ns aE aF db
    simp only [loopA]
    split
    · exact Nat.le_trans (ih _ _ _ _ _) (by simp)
    · simp

theorem loopB_es_eq (flag : Nat) (lv : QueryEdge) (lvD : Bool) :
    ∀ (ns : List QueryEdge) (es : List QueryEdge) (fs : List Nat) (aE : List QueryEdge)
      (aF : List Nat) (db : Bool), (loopB flag lv lvD es fs ns aE aF db).es = es := by
  intro ns
  induction ns with
  | nil => intro es fs aE aF db; simp [loopB]
  | cons n ns ih =>
    intro es fs aE aF db
    simp only [loopB]
    split
    · exact ih _ _ _ _ _
    · rfl

theorem loopB_ns_le (flag : Nat) (lv : QueryEdge) (lvD : Bool) :
    ∀ (ns : List QueryEdge) (es : List QueryEdge) (fs : List Nat) (aE : List QueryEdge)
      (aF : List Nat) (db : Bool), (loopB flag lv lvD es fs ns aE aF db).ns.length ≤ ns.length := by
  intro ns
  induction ns with
  | nil => intro es fs aE aF db; simp [loopB]
  | cons n ns ih =>
    intro es fs aE aF db
    simp only [loopB]
    split
    · exact Nat.le_trans (ih _ _ _ _ _) (by simp)
    · simp

theorem loopC_es_le (flag : Nat) :
    ∀ (es : List QueryEdge) (fs : List Nat) (ns : List QueryEdge) (aE : List QueryEdge)
      (aF : List Nat) (db : Bool), (loopC flag es fs ns aE aF db).es.length ≤ es.length := by
  intro es
  induction es with
  | nil => intro fs ns aE aF db; simp [loopC]
  | cons e es ih =>
    intro fs ns aE aF db
    cases ns with
    | nil => simp [loopC]
    | cons n ns =>
      simp only [loopC]
      split
      · exact Nat.le_trans (ih _ _ _ _ _) (by simp)
      · simp

theorem loopC_ns_le (flag : Nat) :
    ∀ (es : List QueryEdge) (fs : List Nat) (ns : List QueryEdge) (aE : List QueryEdge)
      (aF : List Nat) (db : Bool), (loopC flag es fs ns aE aF db).ns.length ≤ ns.length := by
  intro es
  induction es with
  | nil => intro fs ns aE aF db; simp [loopC]
  | cons e es ih =>
    intro fs ns aE aF db
    cases ns with
    | nil => simp [loopC]
    | cons n ns =>
      simp only [loopC]
      split
      · exact Nat.le_trans (ih _ _ _ _ _) (by simp)
      · simp

theorem loopA_cons_le (rv : QueryEdge) (rvD : Bool) (e : QueryEdge) (es : List QueryEdge)
    (fs : List Nat) (ns : List QueryEdge) (aE : List QueryEdge) (aF : List Nat) (db : Bool)
    (h : mergeCompare e rv = true) :
    (loopA rv rvD (e :: es) fs ns aE aF db).es.length ≤ es.length := by
  simp only [loopA, h, if_true]
  exact loopA_es_le _ _ _ _ _ _ _ _

theorem loopA_skip (rv : QueryEdge) (rvD : Bool) (e : QueryEdge) (es : List QueryEdge)
    (fs : List Nat) (ns : List QueryEdge) (aE : List QueryEdge) (aF : List Nat) (db : Bool)
    (h : mergeCompare e rv = false) :
    loopA rv rvD (e :: es) fs ns aE aF db = ⟨e :: es, fs, ns, aE, aF, db || rvD⟩ := by
  simp [loopA, h]

theorem loopB_cons_le (flag : Nat) (lv : QueryEdge) (lvD : Bool) (es : List QueryEdge)
    (fs : List Nat) (n : QueryEdge) (ns : List QueryEdge) (aE : List QueryEdge) (aF : List Nat)
    (db : Bool) (h : mergeCompare n lv = true) :
    (loopB flag lv lvD es fs (n :: ns) aE aF db).ns.length ≤ ns.length := by
  simp only [loopB, h, if_true]
  exact loopB_ns_le _ _ _ _ _ _ _ _ _

theorem loopB_skip (flag : Nat) (lv : QueryEdge) (lvD : Bool) (es : List QueryEdge)
    (fs : List Nat) (n : QueryEdge) (ns : List QueryEdge) (aE : List QueryEdge) (aF : List Nat)
    (db : Bool) (h : mergeCompare n lv = false) :
    loopB flag lv lvD es fs (n :: ns) aE aF db = ⟨es, fs, n :: ns, aE, aF, db || lvD⟩ := by
  simp [loopB, h]

theorem loopC_cons_le (flag : Nat) (e : QueryEdge) (es : List QueryEdge) (fs : List Nat)
    (n : QueryEdge) (ns : List QueryEdge) (aE : List QueryEdge) (aF : List Nat) (db : Bool)
    (h : mergable e n = true) :
    (loopC flag (e :: es) fs (n :: ns) aE aF db).es.length ≤ es.length ∧
    (loopC flag (e :: es) fs (n :: ns) aE aF db).ns.length ≤ ns.length := by
  simp only [loopC, h, if_true]
  exact ⟨loopC_es_le _ _ _ _ _ _ _, loopC_ns_le _ _ _ _ _ _ _⟩

theorem outerBody_lt (flag : Nat) (ge : QueryEdge) (e n : QueryEdge) (es' ns' : List QueryEdge)
    (fs : List Nat) (aE : List QueryEdge) (aF : List Nat) (db : Bool) :
    (outerBody flag ge n ⟨e :: es', fs, n :: ns', aE, aF, db⟩).es.length +
      (outerBody flag ge n ⟨e :: es', fs, n :: ns', aE, aF, db⟩).ns.length <
      (e :: es').length + (n :: ns').length := by
  simp only [outerBody]
  set s1 := loopA n false (e :: es') fs (n :: ns') aE aF db with hs1
  set s2 := loopB flag (s1.es.headD ge) s1.es.isEmpty s1.es s1.fs s1.ns s1.accE s1.accF s1.db
    with hs2
  have hCes := loopC_es_le flag s2.es s2.fs s2.ns s2.accE s2.accF s2.db
  have hCns := loopC_ns_le flag s2.es s2.fs s2.ns s2.accE s2.accF s2.db
  have hAns : s1.ns = n :: ns' := loopA_ns_eq n false (e :: es') fs (n :: ns') aE aF db
  by_cases h1 : mergeCompare e n = true
  · have hA : s1.es.length ≤ es'.length := loopA_cons_le n false e es' fs (n :: ns') aE aF db h1
    have hBes : s2.es.length = s1.es.length := by
      rw [loopB_es_eq flag (s1.es.headD ge) s1.es.isEmpty s1.ns s1.es s1.fs s1.accE s1.accF s1.db]
    have hBns : s2.ns.length ≤ s1.ns.length :=
      loopB_ns_le flag (s1.es.headD ge) s1.es.isEmpty s1.ns s1.es s1.fs s1.accE s1.accF s1.db
    have hAnsLen : s1.ns.length = ns'.length + 1 := by rw [hAns]; simp
    simp only [List.length_cons]
    omega
  · have hEskip : s1 = ⟨e :: es', fs, n :: ns', aE, aF, db || false⟩ :=
      loopA_skip n false e es' fs (n :: ns') aE aF db (by simpa using h1)
    by_cases h2 : mergeCompare n e = true
    · have h2s : s2 = loopB flag e false (e :: es') fs (n :: ns') aE aF (db || false) := by
        rw [hs2, hEskip]
        rfl
      have hBns : s2.ns.length ≤ ns'.length := by
        rw [h2s]
        exact loopB_cons_le flag e false (e :: es') fs n ns' aE aF (db || false) h2
      have hBes : s2.es.length = es'.length + 1 := by
        rw [h2s, loopB_es_eq flag e false (n :: ns') (e :: es') fs aE aF (db || false)]
        simp
      simp only [List.length_cons]
      omega
    · have hm : mergable e n = true := by
        simp [mergable, (by simpa using h1 : mergeCompare e n = false),
          (by simpa using h2 : mergeCompare n e = false)]
      have h2s : s2 = ⟨e :: es', fs, n :: ns', aE, aF, (db || false) || false⟩ := by
        rw [hs2, hEskip]
        exact loopB_skip flag e false (e :: es') fs n ns' aE aF (db || false) (by simpa using h2)
      rw [h2s]
      have hC := loopC_cons_le flag e es' fs n ns' aE aF ((db || false) || false) hm
      simp only [List.length_cons]
      omega

theorem outerLoop_exit (flag : Nat) (ge gn : QueryEdge) :
    ∀ (fuel : Nat) (s : MState), s.es.length + s.ns.length ≤ fuel →
      (outerLoop flag ge gn fuel s).es = [] ∨ (outerLoop flag ge gn fuel s).ns = [] := by
  intro fuel
  induction fuel with
  | zero =>
    intro s h
    simp only [outerLoop]
    left
    have hlen : s.es.length = 0 := by omega
    exact List.length_eq_zero.mp hlen
  | succ fuel ih =>
    intro s h
    obtain ⟨es, fs, ns, aE, aF, db⟩ := s
    cases es with
    | nil =>
      left
      simp [outerLoop]
    | cons e es' =>
      cases ns with
      | nil =>
        right
        simp [outerLoop]
      | cons n ns' =>
        simp only [outerLoop]
        apply ih
        have hlt := outerBody_lt flag ge e n es' ns' fs aE aF db
        simp only [List.length_cons] at h hlt ⊢
        omega

theorem loopA_db_le (rv : QueryEdge) (rvD : Bool) :
    ∀ (es : List QueryEdge) (fs : List Nat) (ns : List QueryEdge) (aE : List QueryEdge)
      (aF : List Nat), (loopA rv rvD es fs ns aE aF true).db = true := by
  intro es
  induction es with
  | nil => intro fs ns aE aF; simp [loopA]
  | cons e es ih =>
    intro fs ns aE aF
    simp only [loopA]
    split
    · simpa using ih _ _ _ _
    · rfl

theorem loopA_db_rvD (rv : QueryEdge) :
    ∀ (es : List QueryEdge) (fs : List Nat) (ns : List QueryEdge) (aE : List QueryEdge)
      (aF : List Nat) (db : Bool), (loopA rv true es fs ns aE aF db).db = true := by
  intro es
  induction es with
  | nil => intro fs ns aE aF db; simp [loopA]
  | cons e es ih =>
    intro fs ns aE aF db
    simp only [loopA]
    split
    · exact ih _ _ _ _ _
    · simp

theorem loopB_db_le (flag : Nat) (lv : QueryEdge) (lvD : Bool) :
    ∀ (ns : List QueryEdge) (es : List QueryEdge) (fs : List Nat) (aE : List QueryEdge)
      (aF : List Nat) (db : Bool), db = true →
      (loopB flag lv lvD es fs ns aE aF db).db = true := by
  intro ns
  induction ns with
  | nil => intro es fs aE aF db _; simp [loopB]
  | cons n ns ih =>
    intro es fs aE aF db hdb
    subst hdb
    simp only [loopB]
    split
    · exact ih _ _ _ _ _ (by simp)
    · simp

/-! Concrete edges used in counterexamples and witnesses. -/

/-- Edge `0 → 1`, weight 5 (scenario S4 pass-0/pass-1 shared edge). -/
def eA : QueryEdge := ⟨0, 1, ⟨false, 0, 5, 0, true, false⟩⟩

/-- Edge `2 → 3`, weight 7 (scenario S4 pass-0 edge). -/
def eB : QueryEdge := ⟨2, 3, ⟨false, 0, 7, 0, true, false⟩⟩

/-- Edge `4 → 5`, weight 9 (scenario S4 pass-1 edge). -/
def eC : QueryEdge := ⟨4, 5, ⟨false, 0, 9, 0, true, false⟩⟩

/-- An edge above `eA`, `eB`, `eC` in the canonical-tuple order; standing in for
a benign value of the out-of-range end reads. -/
def eBig : QueryEdge := ⟨1000, 0, ⟨false, 0, 0, 0, false, false⟩⟩

/-- C2: the claim says `Merge` never dereferences an iterator equal to `end`.
In fact every execution does: for all end-read values, container states and
inputs, the instrumented merge records an out-of-range dereference (at the
latest, the two trailing loops compare against the exhausted sequence's `end`
slot). -/
theorem C2_merge_always_derefs_end (ge gn : QueryEdge) (c : ContractedEdgeContainer)
    (new_edges : List QueryEdge) : (MergeI ge gn c new_edges).2 = true := by
  simp only [MergeI]
  set s1 := outerLoop (2 ^ c.index % 256) ge gn (c.edges.length + new_edges.length + 1)
    ⟨c.edges, c.flags, new_edges, [], [], false⟩ with hs1
  set s2 := loopA (s1.ns.headD gn) s1.ns.isEmpty s1.es s1.fs s1.ns s1.accE s1.accF s1.db with hs2
  have hexit : s1.es = [] ∨ s1.ns = [] := by
    rw [hs1]
    refine outerLoop_exit _ ge gn _ _ ?_
    simp
  have h2 : s2.db = true := by
    rcases hexit with h | h
    · rw [hs2, h]
      simp [loopA]
    · rw [hs2]
      have hEmpty : s1.ns.isEmpty = true := by rw [h]; rfl
      rw [hEmpty]
      exact loopA_db_rvD _ _ _ _ _ _ _
  exact loopB_db_le _ _ _ _ _ _ _ _ _ h2

/-- C1: the claim says `Merge` computes the standard three-way sorted merge, so
merging `[eA]` into the empty container must store `eA` with flag `1 << 0`
(as `specThreeWayMerge` does).  Instead, when the value read by dereferencing
the stored vector's `end` iterator compares less-or-equal to `eA` (here: equal),
the trailing insert loop exits at once and `Merge` returns an empty edge
sequence — the new edge is dropped. -/
theorem C1_merge_drops_new_edge :
    (Merge eA eA ContractedEdgeContainer.empty [eA]).edges = []
    ∧ (Merge eA eA ContractedEdgeContainer.empty [eA]).flags = []
    ∧ specThreeWayMerge 1 [] [eA] = [(eA, 1)] :=
  ⟨by decide, by decide, by simp [specThreeWayMerge]⟩

/-- C3 (counterexample): the claim asserts the stored sequence is strictly
increasing and all flags nonzero after any merges of sorted inputs.  Both parts
fail as stated: a sorted (non-strict, duplicated) input `[eA, eA]` is stored
twice, and a ninth pass stores flag `1 << 8` truncated to the 8-bit flag type,
i.e. `0`. -/
theorem C3_invariant_counterexample :
    (sortedLe [eA, eA] = true
      ∧ ¬ edgeChain (mergeRuns (fun _ => (eBig, eBig)) [[eA, eA]]).edges)
    ∧ 0 ∈ (mergeRuns (fun _ => (eBig, eBig)) [[], [], [], [], [], [], [], [], [eA]]).flags :=
  ⟨⟨by decide, by decide⟩, by decide⟩

/-- C3 (amended): starting from the empty container, after at most 8 `Merge`
calls whose inputs are strictly increasing by the canonical tuple, the stored
sequence is strictly increasing and every stored flag is nonzero — for every
value of the out-of-range end reads performed by the merge. -/
theorem C3_sorted_dedup_invariant (g : Nat → QueryEdge × QueryEdge)
    (passes : List (List QueryEdge)) (hlen : passes.length ≤ 8)
    (hsorted : ∀ p ∈ passes, edgeChain p) :
    edgeChain (mergeRuns g passes).edges ∧ ∀ f ∈ (mergeRuns g passes).flags, f ≠ 0 := by
  have h := mergeRuns_foldl_inv g passes ContractedEdgeContainer.empty
    (by simpa [ContractedEdgeContainer.empty] using hlen)
    (by simp [ContractedEdgeContainer.empty, edgeChain])
    (by simp [ContractedEdgeContainer.empty])
    (by simp [ContractedEdgeContainer.empty]) hsorted
  simpa [mergeRuns] using h

/-- C3 (witness): the amended invariant applied to the two-pass run
`[[eA, eB], [eB, eC]]` with benign end reads. -/
theorem C3_sorted_dedup_invariant_witness :
    (([[eA, eB], [eB, eC]] : List (List QueryEdge)).length ≤ 8
      ∧ ∀ p ∈ ([[eA, eB], [eB, eC]] : List (List QueryEdge)), edgeChain p)
    ∧ edgeChain (mergeRuns (fun _ => (eBig, eBig)) [[eA, eB], [eB, eC]]).edges
    ∧ ∀ f ∈ (mergeRuns (fun _ => (eBig, eBig)) [[eA, eB], [eB, eC]]).flags, f ≠ 0 :=
  ⟨⟨by decide, by decide⟩,
    C3_sorted_dedup_invariant (fun _ => (eBig, eBig)) [[eA, eB], [eB, eC]]
      (by decide) (by decide)⟩

/-- C4: the claim says bit `i` of a stored edge's flags is set iff its tuple
appeared in pass `i`'s input.  Counterexample: `eA` appears in both pass 0 and
pass 1; the pass-0 copy is dropped by the end-read comparison (read value `eA`),
the pass-1 copy is stored, and the stored flags are `[2]` — bit 0 is clear even
though `eA` was in pass 0's input. -/
theorem C4_flag_consistency_violated :
    (mergeRuns (fun i => if i = 0 then (eA, eA) else (eBig, eBig)) [[eA], [eA]]).edges = [eA]
    ∧ ∀ f ∈ (mergeRuns (fun i => if i = 0 then (eA, eA) else (eBig, eBig)) [[eA], [eA]]).flags,
        Nat.testBit f 0 = false :=
  ⟨by decide, by decide⟩

/-- C5: the claim says `MakeEdgeFilters` returns, for each pass `p`, the vector
of bits `(flags[i] >> p) & 1` — on the S4 state `[[1,1,0],[1,0,1]]` (as
`specMakeEdgeFilters` does).  The code instead pushes every bit into
`filters[index]`, one past the last valid slot of a vector of size `index`:
an out-of-range access, embedded as `none`. -/
theorem C5_make_edge_filters_out_of_range :
    MakeEdgeFilters (mergeRuns (fun _ => (eBig, eBig)) [[eA, eB], [eA, eC]]) = none
    ∧ specMakeEdgeFilters (mergeRuns (fun _ => (eBig, eBig)) [[eA, eB], [eA, eC]])
        = [[true, true, false], [true, false, true]] :=
  ⟨by decide, by decide⟩

/-! Embedding of `Contractor::Run` (contractor.cpp:42-162) as the sequence of
its observable reads, contraction calls and writes. -/

/-- Configuration read by `Contractor::Run`: `core_factor` (a float in the
code, modelled as `ℚ`; the code only compares and forwards it) and
`use_cached_priority`. -/
structure ContractorConfig where
  core_factor : ℚ
  use_cached_priority : Bool

/-- One observable step of `Contractor::Run`: a file read, a contraction call
(with the arguments the orchestrator passes), or a file write. -/
inductive RunEvent
  | readNodeWeights
  | loadEdgeGraph
  | readLevels
  | readNodeData
  | readProperties
  | baseContract (allowed : List Bool) (coreArg : ℚ)
  | filterContract (allowed : List Bool) (coreArg : ℚ)
  | writeGraph (checksum : Nat) (numNodes : Nat) (edgeList : List QueryEdge)
  | writeCoreMarker (marker : List Bool)
  | writeLevels (levels : List ℚ)
deriving DecidableEq, Repr

/-- Modelled from the spec: the collaborators of `Contractor::Run` that are not
under `src` — the updater (`LoadAndUpdateEdgeExpandedGraph`, which yields the
maximum edge-based node id), the cached-level / node-data / profile-property
file readers, `contractGraph` (§4.D: returns the shared-core membership vector,
the contracted graph's edges via `toEdges`, and the node levels it assigned),
and the CRC32 of the edge sequence.  Each is an opaque deterministic function
of its inputs, as §4-§6 describe them. -/
structure Collaborators where
  maxEdgeId : Nat
  cachedLevels : List ℚ
  nodeClasses : List Nat
  excludeMasks : List Nat
  contractBase : List Bool → ℚ → List ℚ → List Bool × List QueryEdge × List ℚ
  contractFilter : List Bool → ℚ → List QueryEdge
  crc32 : List QueryEdge → Nat

/-- Modelled from the spec: `util::excludeFlagsToNodeFilter` (§6, not under
`src`): one boolean vector per excludable-class mask, with
`filter_f[v] = (node_class[v] & mask_f) == 0`. -/
def excludeFlagsToNodeFilter (n : Nat) (classes : List Nat) (masks : List Nat) :
    List (List Bool) :=
  masks.map (fun m => (List.range n).map (fun v => decide (Nat.land (classes.getD v 0) m = 0)))

/-- The `always_allowed` computation (contractor.cpp:92-99): start from all
`true` and conjoin each filter pointwise over `[0, max_edge_id + 1)`. -/
def alwaysAllowedCompute (n : Nat) (filters : List (List Bool)) : List Bool :=
  filters.foldl
    (fun acc filter => (List.range n).map (fun v => acc.getD v false && filter.getD v false))
    (List.replicate n true)

/-- `BASE_CORE = 0.9` (contractor.cpp:104). -/
def BASE_CORE : ℚ := mkRat 9 10

/-- `Contractor::Run` (contractor.cpp:42-162).  `garbage i` gives the two
out-of-range end-read values for the merge pass at container index `i`.  A
thrown `util::exception` is the `error` case, carrying the message; the
`core_factor` check precedes every read and write.  `std::min<float>` is the
conditional `b < a ? b : a`. -/
def ContractorRun (config : ContractorConfig) (collab : Collaborators)
    (garbage : Nat → QueryEdge × QueryEdge) : Except String (List RunEvent) :=
  if config.core_factor > 1 ∨ config.core_factor < 0 then
    .error "Core factor must be between 0.0 to 1.0 (inclusive)"
  else
    let n := collab.maxEdgeId + 1
    let filters := excludeFlagsToNodeFilter n collab.nodeClasses collab.excludeMasks
    let always_allowed := alwaysAllowedCompute n filters
    let baseArg := if config.core_factor < BASE_CORE then config.core_factor else BASE_CORE
    let bres := collab.contractBase always_allowed baseArg
      (if config.use_cached_priority then collab.cachedLevels else [])
    let is_shared_core := bres.1
    let graph_edges := bres.2.1
    let out_levels := bres.2.2
    let non_core_edges := graph_edges.filter
      (fun e => !(is_shared_core.getD e.source false && is_shared_core.getD e.target false))
    let c1 := Merge (garbage 0).1 (garbage 0).2 ContractedEdgeContainer.empty non_core_edges
    let cN := filters.foldl
      (fun c filter =>
        Merge (garbage c.index).1 (garbage c.index).2 c
          (collab.contractFilter filter config.core_factor)) c1
    let checksum := collab.crc32 cN.edges
    let is_core_node : List Bool := []
    .ok ([.readNodeWeights, .loadEdgeGraph]
      ++ (if config.use_cached_priority then [.readLevels] else [])
      ++ [.readNodeData, .readProperties, .baseContract always_allowed baseArg]
      ++ filters.map (fun filter => .filterContract filter config.core_factor)
      ++ [.writeGraph checksum n cN.edges, .writeCoreMarker is_core_node]
      ++ (if config.use_cached_priority then [] else [.writeLevels out_levels]))

/-- Picks the arguments out of a `baseContract` event. -/
def baseContractArg? : RunEvent → Option (List Bool × ℚ)
  | .baseContract a q => some (a, q)
  | _ => none

/-- Picks the marker out of a `writeCoreMarker` event. -/
def coreMarkerArg? : RunEvent → Option (List Bool)
  | .writeCoreMarker m => some m
  | _ => none

/-- Arguments of the `baseContract` events of a run. -/
def baseContractArgs (r : Except String (List RunEvent)) : List (List Bool × ℚ) :=
  match r with
  | .error _ => []
  | .ok tr => tr.filterMap baseContractArg?

/-- Markers carried by the `writeCoreMarker` events of a run. -/
def writtenCoreMarkers (r : Except String (List RunEvent)) : List (List Bool) :=
  match r with
  | .error _ => []
  | .ok tr => tr.filterMap coreMarkerArg?

/-- Whether some event of a completed run satisfies `pr`. -/
def traceAny (pr : RunEvent → Bool) : Except String (List RunEvent) → Bool
  | .error _ => false
  | .ok tr => tr.any pr

def isWriteLevels : RunEvent → Bool
  | .writeLevels _ => true
  | _ => false

def isWriteGraph : RunEvent → Bool
  | .writeGraph _ _ _ => true
  | _ => false

def isWriteCoreMarker : RunEvent → Bool
  | .writeCoreMarker _ => true
  | _ => false

/-- A minimal concrete collaborator assignment: one node, no exclusion classes,
contraction produces no edges, CRC is the length. -/
def trivialCollab : Collaborators :=
  ⟨0, [], [], [], fun _ _ _ => ([], [], []), fun _ _ => [], fun es => es.length⟩

/-- Collaborators for a two-node graph whose base contraction emits one edge
(`eA`), with no exclusion classes. -/
def oneEdgeCollab : Collaborators :=
  ⟨1, [], [], [], fun _ _ _ => ([], [eA], []), fun _ _ => [], fun es => es.length⟩

instance {ε α : Type} [DecidableEq ε] [DecidableEq α] : DecidableEq (Except ε α)
  | .error e, .error e' => decidable_of_iff (e = e') (by simp)
  | .error _, .ok _ => isFalse (fun h => Except.noConfusion h)
  | .ok _, .error _ => isFalse (fun h => Except.noConfusion h)
  | .ok a, .ok a' => decidable_of_iff (a = a') (by simp)

theorem alwaysAllowed_getD (n : Nat) (filters : List (List Bool)) (v : Nat) (hv : v < n) :
    (alwaysAllowedCompute n filters).getD v false
      = filters.all (fun filter => filter.getD v false) := by
  suffices h : ∀ acc : List Bool,
      (filters.foldl
          (fun acc filter =>
            (List.range n).map (fun v => acc.getD v false && filter.getD v false))
          acc).getD v false
        = (acc.getD v false && filters.all (fun filter => filter.getD v false)) by
    rw [alwaysAllowedCompute, h (List.replicate n true)]
    simp [List.getD_eq_getElem?_getD, List.getElem?_replicate, hv]
  intro acc
  induction filters generalizing acc with
  | nil => simp
  | cons f fs ih =>
    simp only [List.foldl_cons, List.all_cons, ih]
    have hmap : ((List.range n).map
        (fun v => acc.getD v false && f.getD v false)).getD v false
          = (acc.getD v false && f.getD v false) := by
      rw [List.getD_eq_getElem?_getD, List.getElem?_map, List.getElem?_range hv]
      rfl
    rw [hmap, Bool.and_assoc]

theorem stdMin_eq_min (a b : ℚ) : (if b < a then b else a) = min a b := by
  rcases le_or_lt a b with h | h
  · rw [if_neg (not_lt.mpr h), min_eq_left h]
  · rw [if_pos h, min_eq_right h.le]

theorem filterContract_map_any (pr : RunEvent → Bool) (l : List (List Bool)) (q : ℚ)
    (hp : ∀ a, pr (RunEvent.filterContract a q) = false) :
    (l.map (fun filter => RunEvent.filterContract filter q)).any pr = false := by
  induction l with
  | nil => rfl
  | cons x xs ih => simp [hp, ih]

theorem filterContract_map_filterMap {α : Type} (p : RunEvent → Option α)
    (hp : ∀ a q, p (RunEvent.filterContract a q) = none) (l : List (List Bool)) (q : ℚ) :
    (l.map (fun filter => RunEvent.filterContract filter q)).filterMap p = [] := by
  induction l with
  | nil => rfl
  | cons x xs ih => simp [List.filterMap_cons, hp, ih]

theorem any_filterContract_writeLevels (l : List (List Bool)) (q : ℚ) :
    (l.map (fun filter => RunEvent.filterContract filter q)).any isWriteLevels = false :=
  filterContract_map_any isWriteLevels l q (fun _ => rfl)

theorem any_filterContract_writeGraph (l : List (List Bool)) (q : ℚ) :
    (l.map (fun filter => RunEvent.filterContract filter q)).any isWriteGraph = false :=
  filterContract_map_any isWriteGraph l q (fun _ => rfl)

theorem any_filterContract_writeCoreMarker (l : List (List Bool)) (q : ℚ) :
    (l.map (fun filter => RunEvent.filterContract filter q)).any isWriteCoreMarker = false :=
  filterContract_map_any isWriteCoreMarker l q (fun _ => rfl)

/-- C8: `Run` throws the configuration error exactly for `core_factor` outside
`[0, 1]`: the check precedes every read and write, the message names the core
factor option, and for `core_factor` inside `[0, 1]` the run completes with a
trace instead of this error. -/
theorem C8_core_factor_validation (config : ContractorConfig) (collab : Collaborators)
    (garbage : Nat → QueryEdge × QueryEdge) :
    (config.core_factor > 1 ∨ config.core_factor < 0 →
      ContractorRun config collab garbage
        = .error "Core factor must be between 0.0 to 1.0 (inclusive)")
    ∧ (0 ≤ config.core_factor → config.core_factor ≤ 1 →
      ∃ tr, ContractorRun config collab garbage = .ok tr) := by
  constructor
  · intro h
    unfold ContractorRun
    rw [if_pos h]
  · intro h0 h1
    unfold ContractorRun
    rw [if_neg (by push_neg; exact ⟨h1, h0⟩)]
    exact ⟨_, rfl⟩

/-- C8 (witness): `core_factor = 2` is rejected with the configuration error;
`core_factor = 1` runs to completion. -/
theorem C8_core_factor_validation_witness :
    ContractorRun ⟨2, true⟩ trivialCollab (fun _ => (eA, eA))
        = .error "Core factor must be between 0.0 to 1.0 (inclusive)"
    ∧ ∃ tr, ContractorRun ⟨1, true⟩ trivialCollab (fun _ => (eA, eA)) = .ok tr :=
  ⟨(C8_core_factor_validation ⟨2, true⟩ trivialCollab (fun _ => (eA, eA))).1
      (Or.inl (by decide)),
    (C8_core_factor_validation ⟨1, true⟩ trivialCollab (fun _ => (eA, eA))).2
      (by decide) (by decide)⟩

/-- C6 (counterexample): the accepted configuration `core_factor = 0` runs the
base pass with core argument `0`, not `BASE_CORE = 0.9`: the code passes
`std::min(BASE_CORE, config.core_factor)` (contractor.cpp:107). -/
theorem C6_base_core_counterexample :
    baseContractArgs (ContractorRun ⟨0, false⟩ trivialCollab (fun _ => (eA, eA)))
        = [([true], 0)]
    ∧ (0 : ℚ) ≠ BASE_CORE :=
  ⟨by decide, by decide⟩

/-- C6 (amended): every accepted configuration runs the base contraction pass
exactly once, with allowed set `always_allowed` — pointwise the conjunction of
all exclusion filters — and with core argument `min(BASE_CORE, core_factor)`. -/
theorem C6_base_pass_arguments (config : ContractorConfig) (collab : Collaborators)
    (garbage : Nat → QueryEdge × QueryEdge) (h0 : 0 ≤ config.core_factor)
    (h1 : config.core_factor ≤ 1) :
    baseContractArgs (ContractorRun config collab garbage)
        = [(alwaysAllowedCompute (collab.maxEdgeId + 1)
              (excludeFlagsToNodeFilter (collab.maxEdgeId + 1) collab.nodeClasses
                collab.excludeMasks),
            min BASE_CORE config.core_factor)]
    ∧ ∀ v < collab.maxEdgeId + 1,
        (alwaysAllowedCompute (collab.maxEdgeId + 1)
            (excludeFlagsToNodeFilter (collab.maxEdgeId + 1) collab.nodeClasses
              collab.excludeMasks)).getD v false
          = (excludeFlagsToNodeFilter (collab.maxEdgeId + 1) collab.nodeClasses
              collab.excludeMasks).all (fun filter => filter.getD v false) := by
  constructor
  · unfold ContractorRun
    rw [if_neg (by push_neg; exact ⟨h1, h0⟩)]
    simp only [baseContractArgs]
    cases hcp : config.use_cached_priority <;>
      simp [hcp, List.filterMap_append, List.filterMap_cons, baseContractArg?,
        filterContract_map_filterMap baseContractArg? (fun _ _ => rfl), stdMin_eq_min]
  · intro v hv
    exact alwaysAllowed_getD _ _ v hv

/-- C6 (witness): the amended statement at `core_factor = 0` with the trivial
collaborators (one node, no exclusion classes). -/
theorem C6_base_pass_arguments_witness :
    ((0 : ℚ) ≤ 0 ∧ (0 : ℚ) ≤ 1)
    ∧ baseContractArgs (ContractorRun ⟨0, false⟩ trivialCollab (fun _ => (eA, eA)))
        = [(alwaysAllowedCompute 1 (excludeFlagsToNodeFilter 1 [] []), min BASE_CORE 0)]
    ∧ ∀ v < 1, (alwaysAllowedCompute 1 (excludeFlagsToNodeFilter 1 [] [])).getD v false
        = (excludeFlagsToNodeFilter 1 [] []).all (fun filter => filter.getD v false) :=
  ⟨⟨by decide, by decide⟩,
    C6_base_pass_arguments ⟨0, false⟩ trivialCollab (fun _ => (eA, eA)) (by decide) (by decide)⟩

/-- C7: the claim says the core marker written to the `.core` file is a bitset
of length `N` with bit `v` set iff node `v` is in the final core.  In the code,
`is_core_node` (contractor.cpp:70) is default-constructed and never assigned
before `writeCoreMarker` (line 149): every completed run writes the empty
bitset, whose length differs from `N = max_edge_id + 1` in every graph. -/
theorem C7_core_marker_never_populated (config : ContractorConfig) (collab : Collaborators)
    (garbage : Nat → QueryEdge × QueryEdge) (h0 : 0 ≤ config.core_factor)
    (h1 : config.core_factor ≤ 1) :
    writtenCoreMarkers (ContractorRun config collab garbage) = [[]]
    ∧ ([] : List Bool).length ≠ collab.maxEdgeId + 1 := by
  constructor
  · unfold ContractorRun
    rw [if_neg (by push_neg; exact ⟨h1, h0⟩)]
    simp only [writtenCoreMarkers]
    cases hcp : config.use_cached_priority <;>
      simp [hcp, List.filterMap_append, List.filterMap_cons, coreMarkerArg?,
        filterContract_map_filterMap coreMarkerArg? (fun _ _ => rfl)]
  · simp

/-- C7 (witness): a completed one-node run writes the empty core marker. -/
theorem C7_core_marker_never_populated_witness :
    ((0 : ℚ) ≤ 1 ∧ (1 : ℚ) ≤ 1)
    ∧ writtenCoreMarkers (ContractorRun ⟨1, false⟩ trivialCollab (fun _ => (eA, eA))) = [[]]
    ∧ ([] : List Bool).length ≠ 1 :=
  ⟨⟨by decide, by decide⟩,
    C7_core_marker_never_populated ⟨1, false⟩ trivialCollab (fun _ => (eA, eA))
      (by decide) (by decide)⟩

/-- C9: the claim says two runs on the same input produce bit-identical output
including the CRC of the edge sequence.  The edge sequence written to the graph
file depends on the values `Merge` reads past the end of its vectors —
uninitialized memory, not part of the input: with identical configuration,
input and collaborators, two executions whose end reads differ produce
different `writeGraph` events (here: edge list `[]` with checksum 0 versus
`[eA]` with checksum 1). -/
theorem C9_output_depends_on_oob_reads :
    ContractorRun ⟨1, false⟩ oneEdgeCollab (fun _ => (eA, eA))
      ≠ ContractorRun ⟨1, false⟩ oneEdgeCollab (fun _ => (eBig, eBig)) := by decide

/-- C10: a completed run writes the level file iff `use_cached_priority` is
false, and writes the shortcut graph and the core marker either way
(contractor.cpp:144-153). -/
theorem C10_level_write_frame (config : ContractorConfig) (collab : Collaborators)
    (garbage : Nat → QueryEdge × QueryEdge) (h0 : 0 ≤ config.core_factor)
    (h1 : config.core_factor ≤ 1) :
    traceAny isWriteLevels (ContractorRun config collab garbage)
        = !config.use_cached_priority
    ∧ traceAny isWriteGraph (ContractorRun config collab garbage) = true
    ∧ traceAny isWriteCoreMarker (ContractorRun config collab garbage) = true := by
  unfold ContractorRun
  rw [if_neg (by push_neg; exact ⟨h1, h0⟩)]
  simp only [traceAny]
  refine ⟨?_, ?_, ?_⟩ <;>
    cases hcp : config.use_cached_priority <;>
      simp [hcp, List.any_append, isWriteLevels, isWriteGraph, isWriteCoreMarker,
        any_filterContract_writeLevels, any_filterContract_writeGraph,
        any_filterContract_writeCoreMarker]

/-- C10 (witness): with cached priorities the completed run writes no level
file but still writes the graph and the core marker. -/
theorem C10_level_write_frame_witness :
    ((0 : ℚ) ≤ 1 ∧ (1 : ℚ) ≤ 1)
    ∧ traceAny isWriteLevels (ContractorRun ⟨1, true⟩ trivialCollab (fun _ => (eA, eA)))
        = !true
    ∧ traceAny isWriteGraph (ContractorRun ⟨1, true⟩ trivialCollab (fun _ => (eA, eA))) = true
    ∧ traceAny isWriteCoreMarker (ContractorRun ⟨1, true⟩ trivialCollab (fun _ => (eA, eA)))
        = true :=
  ⟨⟨by decide, by decide⟩,
    C10_level_write_frame ⟨1, true⟩ trivialCollab (fun _ => (eA, eA)) (by decide) (by decide)⟩
